import Mathlib

/-!
Verification of the voice-notes application (sync008/voice-notes-app).

Strings are modelled as `List Char` (JS strings over their code points; all the
constants involved are ASCII).  JS semantics modelled here:

* `String.prototype.trim()`            → `jsTrim` (whitespace at both ends)
* `String.prototype.toLowerCase()`     → `Char.toLower` mapped over the list
  (faithful on ASCII, which is all the vocabulary and regexes touch)
* the regex classes `\w`, `\s`         → `isWordChar`, `isSpaceChar`
* `JSON.stringify` / `JSON.parse` on arrays of note objects
                                       → `stringifyNotes` / `parseNotes`
  (`parseNotes` accepts exactly the grammar `JSON.stringify` produces for
  arrays of `{id, text, createdAt}` records; every other string is a parse
  failure, which models the `SyntaxError` thrown by `JSON.parse` on such
  inputs — in particular on the corrupt inputs considered below)

The number normalizer is `src/my-react-app/src/utils/textUtils.js`
(= `src/unnamed/part_005`):

    text.toLowerCase().replace(/\b[\w-]+(?:\s+[\w-]+)*\b/g, (phrase) => {
      const cleaned = phrase.toLowerCase().replace(/[^\w\s-]/g, '').trim();
      return map[cleaned] || phrase;
    });

The global replace of `/\b[\w-]+(?:\s+[\w-]+)*\b/g` is embedded by the scanner
`scanF` below.  Derivation of the match shape from the regex semantics:
an attempt at a position succeeds only if the first character is in `[\w-]`
and `\b` holds there (exactly one side is a `\w` character); the greedy body
`[\w-]+(?:\s+[\w-]+)*` then consumes the maximal prefix of `[\w\s-]`
characters, and the final `\b` forces backtracking over every trailing
non-`\w` character (hyphens, and whole `\s+[\w-]+` groups made only of
hyphens), so the reported match is that maximal prefix truncated right after
its last `\w` character; the next scan position is the end of the match.
`matchAt` computes exactly this truncated prefix.  The scanner walks the
string left to right carrying one bit `w` — whether the previously emitted
character is a `\w` character — which decides the `\b` test at the current
position; on a failed attempt the regex engine advances one character.
-/

/-- JS regex `\w`: ASCII letters, digits and underscore. -/
def isWordChar (c : Char) : Bool := c.isAlphanum || c = '_'

/-- JS regex `\s` restricted to the ASCII whitespace characters. -/
def isSpaceChar (c : Char) : Bool :=
  c = ' ' || c = '\t' || c = '\n' || c = '\r' || c = '\x0b' || c = '\x0c'

/-- The regex character class `[\w-]`. -/
def isWordHyphen (c : Char) : Bool := isWordChar c || c = '-'

/-- The regex character class `[\w\s-]`, the characters a match can span. -/
def phraseChar (c : Char) : Bool := isWordHyphen c || isSpaceChar c

/-- ASCII uppercase letter (A–Z). -/
def isUpperAscii (c : Char) : Bool := 65 ≤ c.toNat && c.toNat ≤ 90

/-- JS `String.prototype.trim()` (ASCII whitespace model): drop whitespace
from the front, then from the back (`List.rdropWhile` drops the longest
suffix satisfying the predicate). -/
def jsTrim (s : List Char) : List Char :=
  List.rdropWhile isSpaceChar (s.dropWhile isSpaceChar)

/-- Association-list lookup by string equality (JS object property lookup). -/
def lookupAssoc : List (List Char × List Char) → List Char → Option (List Char)
  | [], _ => none
  | (k, v) :: t, a => if a = k then some v else lookupAssoc t a

/-- The lookup table `map` of `normalizeNumbers` in
`src/my-react-app/src/utils/textUtils.js` (`src/unnamed/part_005`). -/
def vocab : List (List Char × List Char) :=
  [("zero".toList, "0".toList), ("one".toList, "1".toList),
   ("two".toList, "2".toList), ("three".toList, "3".toList),
   ("four".toList, "4".toList), ("five".toList, "5".toList),
   ("six".toList, "6".toList), ("seven".toList, "7".toList),
   ("eight".toList, "8".toList), ("nine".toList, "9".toList),
   ("ten".toList, "10".toList), ("eleven".toList, "11".toList),
   ("twelve".toList, "12".toList), ("thirteen".toList, "13".toList),
   ("isa".toList, "1".toList), ("dalawa".toList, "2".toList),
   ("tatlo".toList, "3".toList), ("apat".toList, "4".toList),
   ("lima".toList, "5".toList), ("anim".toList, "6".toList),
   ("pito".toList, "7".toList), ("walo".toList, "8".toList),
   ("siyam".toList, "9".toList), ("sampu".toList, "10".toList),
   ("labing-isa".toList, "11".toList), ("labindalawa".toList, "12".toList),
   ("labintatlo".toList, "13".toList)]

/-- `phrase.toLowerCase().replace(/[^\w\s-]/g, '').trim()` from the
replacement callback of `normalizeNumbers`. -/
def cleanedOf (m : List Char) : List Char :=
  jsTrim ((m.map Char.toLower).filter phraseChar)

/-- `map` is a plain object literal, so the JS property read `map[cleaned]`
falls through to the inherited properties of `Object.prototype` when
`cleaned` is not an own key.  Every inherited value is truthy, and
`String.prototype.replace` coerces the callback result to a string, so a
phrase whose cleaned form is one of these property names is replaced by the
listed string (the standard rendering `String(fn)` of the built-in methods,
`String(Object)` for `constructor`, and `String(Object.prototype)` for the
`__proto__` accessor). -/
def protoProps : List (List Char × List Char) :=
  [("constructor".toList, "function Object() \x7b [native code] \x7d".toList),
   ("hasOwnProperty".toList, "function hasOwnProperty() \x7b [native code] \x7d".toList),
   ("isPrototypeOf".toList, "function isPrototypeOf() \x7b [native code] \x7d".toList),
   ("propertyIsEnumerable".toList,
     "function propertyIsEnumerable() \x7b [native code] \x7d".toList),
   ("toLocaleString".toList, "function toLocaleString() \x7b [native code] \x7d".toList),
   ("toString".toList, "function toString() \x7b [native code] \x7d".toList),
   ("valueOf".toList, "function valueOf() \x7b [native code] \x7d".toList),
   ("__defineGetter__".toList,
     "function __defineGetter__() \x7b [native code] \x7d".toList),
   ("__defineSetter__".toList,
     "function __defineSetter__() \x7b [native code] \x7d".toList),
   ("__lookupGetter__".toList,
     "function __lookupGetter__() \x7b [native code] \x7d".toList),
   ("__lookupSetter__".toList,
     "function __lookupSetter__() \x7b [native code] \x7d".toList),
   ("__proto__".toList, "[object Object]".toList)]

/-- The replacement callback: `map[cleaned] || phrase`.  The property read
checks the own keys of the literal first; on a miss it walks the prototype
chain (`protoProps`), and only when both miss is the value `undefined`
(falsy), so that `|| phrase` returns the phrase unchanged. -/
def applyMap (m : List Char) : List Char :=
  match lookupAssoc vocab (cleanedOf m) with
  | some v => v
  | none =>
    match lookupAssoc protoProps (cleanedOf m) with
    | some v => v
    | none => m

/-- Whether a regex match attempt may start here: the current character is in
`[\w-]` and `\b` holds, i.e. exactly one of (current char, previous char) is
a `\w` character.  `w` says whether the previous character is a `\w` char
(start of string counts as not). -/
def canStart (w : Bool) (c : Char) : Bool :=
  isWordHyphen c && (isWordChar c != w)

/-- The match of `\b[\w-]+(?:\s+[\w-]+)*\b` starting at the head of `s`
(given that `canStart` already holds): the maximal prefix of `[\w\s-]`
characters, truncated right after its last `\w` character (final-`\b`
backtracking).  Empty result means the attempt fails. -/
def matchAt (s : List Char) : List Char :=
  List.rdropWhile (fun c => !(isWordChar c)) (s.takeWhile phraseChar)

/-- One pass of `text.replace(/\b[\w-]+(?:\s+[\w-]+)*\b/g, cb)`, fuel-indexed
(the fuel only needs to be at least the length of the list; each step consumes
at least one character). -/
def scanF : Nat → Bool → List Char → List Char
  | 0, _, _ => []
  | _ + 1, _, [] => []
  | f + 1, w, c :: ts =>
    if canStart w c then
      if (matchAt (c :: ts)).isEmpty then c :: scanF f (isWordChar c) ts
      else applyMap (matchAt (c :: ts)) ++
        scanF f true (List.drop (matchAt (c :: ts)).length (c :: ts))
    else c :: scanF f (isWordChar c) ts

/-- The global regex replace, with just enough fuel. -/
def runScan (w : Bool) (s : List Char) : List Char := scanF s.length w s

/-- `normalizeNumbers` from `src/my-react-app/src/utils/textUtils.js`
(`src/unnamed/part_005`): lowercase the whole text, then replace each
matched phrase via the lookup table. -/
def normalizeNumbers (s : List Char) : List Char :=
  runScan false (s.map Char.toLower)

/-- A list whose head (if any) cannot belong to a phrase: scanning never
takes characters from such a list into a match candidate. -/
def Blocked (q : List Char) : Prop :=
  ∀ a, q.head? = some a → phraseChar a = false

/-- A note record, as created by `addNote` in
`src/my-react-app/src/hooks/useLocalNotes.js` (`src/unnamed/part_005`):
`{ id: ..., text: text.trim(), createdAt: ... }`.  The id (an opaque
`Date.now()+random` string) and the `createdAt` ISO timestamp are
nondeterministic at the call site, so `addNote` takes them as arguments. -/
structure Note where
  id : List Char
  text : List Char
  createdAt : List Char
deriving DecidableEq

/-- `addNote(text)`: builds the new note with trimmed text and prepends it
(`setNotes(prev => [newNote, ...prev])`).  There is no emptiness check in the
store itself. -/
def addNote (noteId createdAt text : List Char) (notes : List Note) : List Note :=
  { id := noteId, text := jsTrim text, createdAt := createdAt } :: notes

/-- `deleteNote(id)`: `setNotes(prev => prev.filter(n => n.id !== id))`. -/
def deleteNote (noteId : List Char) (notes : List Note) : List Note :=
  notes.filter (fun n => !(n.id = noteId : Bool))

/-- Hex digit used by `JSON.stringify` for `\u00XX` escapes (lowercase). -/
def hexDigit (n : Nat) : Char :=
  if n < 10 then Char.ofNat (48 + n) else Char.ofNat (87 + n)

/-- Value of a hex digit character (JSON accepts both cases). -/
def hexVal (c : Char) : Option Nat :=
  if 48 ≤ c.toNat && c.toNat ≤ 57 then some (c.toNat - 48)
  else if 97 ≤ c.toNat && c.toNat ≤ 102 then some (c.toNat - 87)
  else if 65 ≤ c.toNat && c.toNat ≤ 70 then some (c.toNat - 55)
  else none

/-- `JSON.stringify` escaping of one character inside a string literal. -/
def escChar (c : Char) : List Char :=
  if c = '"' then ['\\', '"']
  else if c = '\\' then ['\\', '\\']
  else if c = '\x08' then ['\\', 'b']
  else if c = '\x0c' then ['\\', 'f']
  else if c = '\n' then ['\\', 'n']
  else if c = '\r' then ['\\', 'r']
  else if c = '\t' then ['\\', 't']
  else if c.toNat < 32 then
    ['\\', 'u', '0', '0', hexDigit (c.toNat / 16), hexDigit (c.toNat % 16)]
  else [c]

/-- `JSON.stringify` body of a string literal. -/
def escapeJson (s : List Char) : List Char := (s.map escChar).flatten

/-- `JSON.stringify` of one note object (JS preserves the insertion order of
the keys: `id`, `text`, `createdAt`; each string value is rendered as a
quoted, escaped literal). -/
def noteJson (n : Note) : List Char :=
  "\x7b\"id\":\"".toList ++ escapeJson n.id ++
  "\",\"text\":\"".toList ++ escapeJson n.text ++
  "\",\"createdAt\":\"".toList ++ escapeJson n.createdAt ++ "\"\x7d".toList

/-- Join with comma separators (array element separation in
`JSON.stringify`). -/
def joinComma : List (List Char) → List Char
  | [] => []
  | [x] => x
  | x :: y :: t => x ++ ',' :: joinComma (y :: t)

/-- `JSON.stringify(notes)`: the serialized JSON array written to
`localStorage.setItem('voiceNotes', ...)` on every mutation. -/
def stringifyNotes (notes : List Note) : List Char :=
  '[' :: joinComma (notes.map noteJson) ++ [']']

/-- Match an exact literal prefix, returning the rest. -/
def expectLit : List Char → List Char → Option (List Char)
  | [], s => some s
  | _ :: _, [] => none
  | p :: ps, c :: cs => if c = p then expectLit ps cs else none

/-- Parse the body of a JSON string literal up to its closing quote
(fuel-indexed; one produced character per step). -/
def parseStr : Nat → List Char → Option (List Char × List Char)
  | 0, _ => none
  | _ + 1, [] => none
  | f + 1, c :: cs =>
    if c = '"' then some ([], cs)
    else if c = '\\' then
      match cs with
      | [] => none
      | e :: cs' =>
        if e = '"' ∨ e = '\\' ∨ e = '/' then
          match parseStr f cs' with
          | some (r, rest) => some (e :: r, rest)
          | none => none
        else if e = 'b' then
          match parseStr f cs' with
          | some (r, rest) => some ('\x08' :: r, rest)
          | none => none
        else if e = 'f' then
          match parseStr f cs' with
          | some (r, rest) => some ('\x0c' :: r, rest)
          | none => none
        else if e = 'n' then
          match parseStr f cs' with
          | some (r, rest) => some ('\n' :: r, rest)
          | none => none
        else if e = 'r' then
          match parseStr f cs' with
          | some (r, rest) => some ('\r' :: r, rest)
          | none => none
        else if e = 't' then
          match parseStr f cs' with
          | some (r, rest) => some ('\t' :: r, rest)
          | none => none
        else if e = 'u' then
          match cs' with
          | h1 :: h2 :: h3 :: h4 :: cs'' =>
            match hexVal h1, hexVal h2, hexVal h3, hexVal h4 with
            | some a, some b, some c1, some d =>
              match parseStr f cs'' with
              | some (r, rest) =>
                some (Char.ofNat (((a * 16 + b) * 16 + c1) * 16 + d) :: r, rest)
              | none => none
            | _, _, _, _ => none
          | _ => none
        else none
    else if c.toNat < 32 then none
    else
      match parseStr f cs with
      | some (r, rest) => some (c :: r, rest)
      | none => none

/-- Parse one serialized note object. -/
def parseNote (f : Nat) (s : List Char) : Option (Note × List Char) :=
  match expectLit "\x7b\"id\":\"".toList s with
  | none => none
  | some s1 =>
    match parseStr f s1 with
    | none => none
    | some (noteId, s2) =>
      match expectLit ",\"text\":\"".toList s2 with
      | none => none
      | some s3 =>
        match parseStr f s3 with
        | none => none
        | some (text, s4) =>
          match expectLit ",\"createdAt\":\"".toList s4 with
          | none => none
          | some s5 =>
            match parseStr f s5 with
            | none => none
            | some (createdAt, s6) =>
              match s6 with
              | '\x7d' :: s7 =>
                some ({ id := noteId, text := text, createdAt := createdAt }, s7)
              | _ => none

/-- Parse a comma-separated sequence of note objects terminated by a final
`]` at the very end of the input. -/
def parseItems : Nat → List Char → Option (List Note)
  | 0, _ => none
  | f + 1, s =>
    match parseNote (f + 1) s with
    | none => none
    | some (n, rest) =>
      match rest with
      | [']'] => some [n]
      | ',' :: rest' =>
        match parseItems f rest' with
        | some ns => some (n :: ns)
        | none => none
      | _ => none

/-- Model of `JSON.parse` as used on the stored value: accepts exactly the
note-array grammar `JSON.stringify` produces (other JSON texts do not occur
as stored values written by this app); returns `none` where `JSON.parse`
throws a `SyntaxError`. -/
def parseNotes (s : List Char) : Option (List Note) :=
  match s with
  | '[' :: ']' :: [] => some []
  | '[' :: rest => parseItems rest.length rest
  | _ => none

/-- Hydration in `useLocalNotes`:
`const saved = localStorage.getItem('voiceNotes'); return saved ? JSON.parse(saved) : [];`
`stored = none` models a missing key (`getItem` returned `null`); the empty
string is falsy in JS, so it also yields `[]`.  A failing `JSON.parse` throws,
modelled by `Except.error`: there is no catch in the source. -/
def hydrate (stored : Option (List Char)) : Except (List Char) (List Note) :=
  match stored with
  | none => Except.ok []
  | some s =>
    if s = [] then Except.ok []
    else
      match parseNotes s with
      | some ns => Except.ok ns
      | none => Except.error "SyntaxError".toList

/-- The value mirrored to `localStorage` by the persistence effect
(`localStorage.setItem('voiceNotes', JSON.stringify(notes))`). -/
def persistNotes (notes : List Note) : List Char := stringifyNotes notes

/-- State of the `Recorder` component in
`src/my-react-app/src/components/NotesList/NotesList.jsx` (the Recorder
defined in that file). -/
structure RecorderState where
  isRecording : Bool
  transcript : List Char
  interimTranscript : List Char
  finalTranscript : List Char
  isStoppedManually : Bool
deriving DecidableEq

/-- Initial component state (`useState` defaults, refs start false). -/
def initialRecorder : RecorderState :=
  { isRecording := false, transcript := [], interimTranscript := [],
    finalTranscript := [], isStoppedManually := false }

/-- `recognition.onresult`: an event is a list of results, each a pair of its
`isFinal` flag and its transcript text.  Final fragments are concatenated,
normalized (after trimming) and appended to the transcript with a trailing
space; the interim text is replaced by the concatenation of the non-final
fragments. -/
def onResult (results : List (Bool × List Char)) (st : RecorderState) : RecorderState :=
  let final := ((results.filter (fun r => r.1)).map (fun r => r.2)).flatten
  let interim := ((results.filter (fun r => !r.1)).map (fun r => r.2)).flatten
  let st' :=
    if final.isEmpty then st
    else { st with transcript := st.transcript ++ normalizeNumbers (jsTrim final) ++ [' '] }
  { st' with interimTranscript := interim }

/-- `stopRecording` (NotesList.jsx file, lines 141–146): sets the manual-stop
flag, leaves recording mode, clears the interim text and exposes
`transcript.trim()` as the final transcript. -/
def stopRecording (st : RecorderState) : RecorderState :=
  { st with
    isStoppedManually := true,
    isRecording := false,
    interimTranscript := [],
    finalTranscript := jsTrim st.transcript }

/-- The error codes distinguished by `recognition.onerror` in
`src/my-react-app/src/App.jsx`. -/
inductive SpeechError where
  | notAllowed
  | permissionDenied
  | noSpeech
  | audioCapture
  | network
  | aborted
  | serviceNotAllowed
  | other
deriving DecidableEq

/-- State of the `Recorder` component in `src/my-react-app/src/App.jsx`
(the fields touched by `onerror` / `onend`).  `restartScheduled` models
`restartTimeoutRef.current = setTimeout(...)` having been armed. -/
structure AppRecorderState where
  isRecording : Bool
  recognitionActive : Bool
  interimTranscript : List Char
  error : Option (List Char)
  isStoppedManually : Bool
  restartScheduled : Bool
deriving DecidableEq

/-- `recognition.onerror` from `src/my-react-app/src/App.jsx` lines 150–181,
branch for branch (message texts abbreviated to their ASCII core; the claims
only depend on whether an error is surfaced). -/
def onError (e : SpeechError) (st : AppRecorderState) : AppRecorderState :=
  if e = SpeechError.notAllowed ∨ e = SpeechError.permissionDenied then
    { st with
      error := some "Microphone permission denied".toList,
      isRecording := false,
      recognitionActive := false,
      isStoppedManually := true }
  else if e = SpeechError.noSpeech then st
  else if e = SpeechError.audioCapture then
    { st with
      error := some "Cannot access microphone".toList,
      isRecording := false,
      recognitionActive := false,
      isStoppedManually := true }
  else if e = SpeechError.network then
    { st with
      error := some "No internet connection".toList,
      isRecording := false,
      recognitionActive := false,
      isStoppedManually := true }
  else if e = SpeechError.aborted then st
  else if e = SpeechError.serviceNotAllowed then
    { st with
      error := some "Speech recognition service not available".toList,
      isRecording := false,
      recognitionActive := false,
      isStoppedManually := true }
  else st

/-- `recognition.onend` from `src/my-react-app/src/App.jsx` lines 183–209:
recognition is no longer active, the interim text is cleared; then
`if (!isStoppedManually.current && isRecording)` either schedules the 300ms
restart or leaves recording mode.  `isStoppedManually` is a ref, read at call
time; but `isRecording` is React state read from the handler's closure, so the
handler sees the value of the render in which `initRecognition` created it —
that is the `capturedIsRecording` parameter here, not the current state.  In
the program the handlers are created inside `startRecording` (App.jsx line
246), which runs in a render where `isRecording` is still `false` —
`setIsRecording(true)` only happens afterwards (line 259) and never rebinds
the handler — so the captured value is `false`. -/
def onEnd (capturedIsRecording : Bool) (st : AppRecorderState) : AppRecorderState :=
  let st' := { st with recognitionActive := false, interimTranscript := [] }
  if !st'.isStoppedManually && capturedIsRecording then
    { st' with restartScheduled := true }
  else
    { st' with isRecording := false }

/-! ### Generic list helpers -/

theorem takeWhile_append_of_all {p : Char → Bool} {x : List Char}
    (h : ∀ c ∈ x, p c = true) (q : List Char) :
    List.takeWhile p (x ++ q) = x ++ List.takeWhile p q := by
  induction x with
  | nil => simp
  | cons c t ih =>
    have hc : p c = true := h c (by simp)
    simp only [List.cons_append, List.takeWhile_cons, hc, if_true]
    rw [ih (fun a ha => h a (by simp [ha]))]

theorem dropWhile_append_of_all {p : Char → Bool} {x : List Char}
    (h : ∀ c ∈ x, p c = true) (q : List Char) :
    List.dropWhile p (x ++ q) = List.dropWhile p q := by
  induction x with
  | nil => simp
  | cons c t ih =>
    have hc : p c = true := h c (by simp)
    simp only [List.cons_append, List.dropWhile_cons, hc, if_true]
    exact ih (fun a ha => h a (by simp [ha]))

theorem rdropWhile_append_of_all {p : Char → Bool} {y : List Char}
    (h : ∀ c ∈ y, p c = true) (x : List Char) :
    List.rdropWhile p (x ++ y) = List.rdropWhile p x := by
  unfold List.rdropWhile
  rw [List.reverse_append,
    dropWhile_append_of_all (fun a ha => h a (List.mem_reverse.mp ha))]

theorem rdropWhile_eq_self_of_last {p : Char → Bool} {l : List Char}
    (h : ∀ a, l.getLast? = some a → p a = false) : List.rdropWhile p l = l := by
  rw [List.rdropWhile_eq_self_iff]
  intro hl
  have := h (l.getLast hl) (List.getLast?_eq_getLast l hl)
  simp [this]

theorem rdropWhile_decomp (p : Char → Bool) (l : List Char) :
    l = List.rdropWhile p l ++ List.rtakeWhile p l := by
  unfold List.rdropWhile List.rtakeWhile
  rw [← List.reverse_append, List.takeWhile_append_dropWhile, List.reverse_reverse]

theorem rdropWhile_eq_nil_of_all {p : Char → Bool} {l : List Char}
    (h : ∀ c ∈ l, p c = true) : List.rdropWhile p l = [] :=
  List.rdropWhile_eq_nil_iff.mpr h

theorem rdropWhile_last_word {p : Char → Bool} {l : List Char} {a : Char}
    (h : (List.rdropWhile p l).getLast? = some a) : p a = false := by
  have hne : List.rdropWhile p l ≠ [] := by
    intro hnil
    rw [hnil] at h
    simp at h
  have hlast := List.rdropWhile_last_not (l := l) (p := p) hne
  have : (List.rdropWhile p l).getLast hne = a := by
    have := List.getLast?_eq_getLast (List.rdropWhile p l) hne
    rw [this] at h
    exact (Option.some_inj.mp h)
  rw [this] at hlast
  simp only [Bool.not_eq_true] at hlast
  exact hlast

theorem blocked_nil : Blocked [] := by
  intro a ha
  simp at ha

theorem takeWhile_eq_nil_of_blocked {q : List Char} (h : Blocked q) :
    List.takeWhile phraseChar q = [] := by
  cases q with
  | nil => rfl
  | cons a t =>
    have := h a rfl
    simp [List.takeWhile_cons, this]

theorem blocked_dropWhile_phrase (s : List Char) :
    Blocked (List.dropWhile phraseChar s) := by
  intro a ha
  have := List.head?_dropWhile_not phraseChar s
  rw [ha] at this
  exact this

/-! ### Character lemmas for `Char.toLower` -/

theorem char_toNat_ofNat_of_lt {m : Nat} (h : m < 55296) : (Char.ofNat m).toNat = m := by
  rw [Char.ofNat, dif_pos (Or.inl h)]
  rfl

theorem toLower_not_upper (c : Char) : isUpperAscii (Char.toLower c) = false := by
  simp only [Char.toLower]
  split
  · rename_i h
    have h32 : (Char.ofNat (c.toNat + 32)).toNat = c.toNat + 32 :=
      char_toNat_ofNat_of_lt (by omega)
    simp only [isUpperAscii, h32, Bool.and_eq_false_iff, decide_eq_false_iff_not]
    omega
  · rename_i h
    simp only [isUpperAscii, Bool.and_eq_false_iff, decide_eq_false_iff_not]
    omega

theorem toLower_eq_self_of_not_upper {c : Char} (h : isUpperAscii c = false) :
    Char.toLower c = c := by
  simp only [Char.toLower]
  rw [if_neg]
  simp only [isUpperAscii, Bool.and_eq_false_iff, decide_eq_false_iff_not] at h
  omega

theorem toLower_toLower (c : Char) : Char.toLower (Char.toLower c) = Char.toLower c :=
  toLower_eq_self_of_not_upper (toLower_not_upper c)

theorem map_toLower_eq_self {l : List Char} (h : ∀ c ∈ l, isUpperAscii c = false) :
    l.map Char.toLower = l := by
  induction l with
  | nil => rfl
  | cons c t ih =>
    simp only [List.map_cons, List.cons.injEq]
    exact ⟨toLower_eq_self_of_not_upper (h c (by simp)),
      ih (fun a ha => h a (by simp [ha]))⟩

/-! ### Step and structure lemmas for the scanner -/

theorem scanF_nil (f : Nat) (w : Bool) : scanF f w [] = [] := by
  cases f <;> rfl

theorem scanF_emit {w : Bool} {c : Char} (f : Nat) (ts : List Char)
    (h : canStart w c = false) :
    scanF (f + 1) w (c :: ts) = c :: scanF f (isWordChar c) ts := by
  simp [scanF, h]

theorem scanF_fail {w : Bool} {c : Char} (f : Nat) (ts : List Char)
    (h1 : canStart w c = true) (h2 : matchAt (c :: ts) = []) :
    scanF (f + 1) w (c :: ts) = c :: scanF f (isWordChar c) ts := by
  simp [scanF, h1, h2]

theorem scanF_match {w : Bool} {c : Char} {ts m : List Char} (f : Nat)
    (h1 : canStart w c = true) (h2 : matchAt (c :: ts) = m) (h3 : m ≠ []) :
    scanF (f + 1) w (c :: ts) =
      applyMap m ++ scanF f true (List.drop m.length (c :: ts)) := by
  have h4 : m.isEmpty = false := by
    cases m with
    | nil => exact absurd rfl h3
    | cons a t => rfl
  simp [scanF, h1, h2, h4]

theorem matchAt_prefix_decomp (s : List Char) :
    s = matchAt s ++ s.drop (matchAt s).length := by
  have h1 : matchAt s <+: s :=
    (List.rdropWhile_prefix _ _).trans (List.takeWhile_prefix _)
  have h2 : matchAt s = s.take (matchAt s).length := List.prefix_iff_eq_take.mp h1
  conv_lhs => rw [← List.take_append_drop (matchAt s).length s]
  rw [← h2]

theorem matchAt_length_le (s : List Char) : (matchAt s).length ≤ s.length := by
  have h1 : matchAt s <+: s :=
    (List.rdropWhile_prefix _ _).trans (List.takeWhile_prefix _)
  exact h1.length_le

theorem matchAt_spec {s m : List Char} (hm : matchAt s = m) (hne : m ≠ []) :
    (∀ c ∈ m, phraseChar c = true) ∧
    (∀ a, m.getLast? = some a → isWordChar a = true) ∧
    ∃ d, List.takeWhile phraseChar s = m ++ d ∧
      ∀ c ∈ d, phraseChar c = true ∧ isWordChar c = false := by
  subst hm
  refine ⟨?_, ?_, ?_⟩
  · intro c hc
    have : c ∈ List.takeWhile phraseChar s :=
      (List.rdropWhile_prefix _ _).subset hc
    exact List.mem_takeWhile_imp this
  · intro a ha
    have := rdropWhile_last_word ha
    simpa using this
  · refine ⟨List.rtakeWhile (fun c => !(isWordChar c)) (List.takeWhile phraseChar s),
      rdropWhile_decomp _ _, ?_⟩
    intro c hc
    have h1 : (!(isWordChar c)) = true :=
      List.mem_rtakeWhile_imp (p := fun c => !(isWordChar c)) hc
    have h2 : c ∈ List.takeWhile phraseChar s := (List.rtakeWhile_suffix _ _).subset hc
    exact ⟨List.mem_takeWhile_imp h2, by simpa using h1⟩

theorem matchAt_empty_all {s : List Char} (hm : matchAt s = []) :
    ∀ c ∈ List.takeWhile phraseChar s, isWordChar c = false := by
  intro c hc
  have := List.rdropWhile_eq_nil_iff.mp hm c hc
  simpa using this

theorem matchAt_head {c : Char} {ts m : List Char} (hm : matchAt (c :: ts) = m)
    (hph : phraseChar c = true) (hne : m ≠ []) : ∃ m', m = c :: m' := by
  have hdecomp := (matchAt_spec hm hne).2.2
  obtain ⟨d, hd, _⟩ := hdecomp
  rw [List.takeWhile_cons, if_pos hph] at hd
  cases m with
  | nil => exact absurd rfl hne
  | cons a t =>
    refine ⟨t, ?_⟩
    have : a = c := by
      have := congrArg List.head? hd
      simpa using this.symm
    rw [this]

/-! ### Lookup-table facts -/

theorem lookupAssoc_mem : ∀ {l : List (List Char × List Char)} {a v : List Char},
    lookupAssoc l a = some v → (a, v) ∈ l := by
  intro l
  induction l with
  | nil => intro a v h; simp [lookupAssoc] at h
  | cons p t ih =>
    intro a v h
    obtain ⟨k, v'⟩ := p
    by_cases hk : a = k
    · rw [lookupAssoc, if_pos hk] at h
      subst hk
      obtain rfl : v' = v := Option.some_inj.mp h
      exact List.mem_cons_self _ _
    · rw [lookupAssoc, if_neg hk] at h
      exact List.mem_cons_of_mem _ (ih h)

set_option maxHeartbeats 1000000 in
theorem vocab_val_len : ∀ p ∈ vocab, p.2.length ≤ p.1.length := by decide

set_option maxHeartbeats 1000000 in
theorem vocab_val_word : ∀ p ∈ vocab,
    p.2 ≠ [] ∧ ∀ c ∈ p.2, isWordChar c = true := by decide

set_option maxHeartbeats 1000000 in
theorem vocab_key_no_hyphen_head : ∀ p ∈ vocab, p.1.head? ≠ some '-' := by decide

set_option maxHeartbeats 1000000 in
theorem vocab_val_fix : ∀ p ∈ vocab, applyMap p.2 = p.2 := by decide

set_option maxHeartbeats 1000000 in
theorem vocab_val_not_upper : ∀ p ∈ vocab, ∀ c ∈ p.2, isUpperAscii c = false := by
  decide

theorem cleanedOf_length_le (m : List Char) : (cleanedOf m).length ≤ m.length := by
  unfold cleanedOf jsTrim
  calc (List.rdropWhile isSpaceChar
        (List.dropWhile isSpaceChar ((m.map Char.toLower).filter phraseChar))).length
      ≤ (List.dropWhile isSpaceChar ((m.map Char.toLower).filter phraseChar)).length :=
        (List.rdropWhile_prefix _ _).length_le
    _ ≤ ((m.map Char.toLower).filter phraseChar).length :=
        (List.dropWhile_suffix _).length_le
    _ ≤ (m.map Char.toLower).length := List.length_filter_le _ _
    _ = m.length := List.length_map _ _

theorem applyMap_or (m : List Char) :
    applyMap m = m ∨
      lookupAssoc vocab (cleanedOf m) = some (applyMap m) ∨
      lookupAssoc protoProps (cleanedOf m) = some (applyMap m) := by
  unfold applyMap
  cases h1 : lookupAssoc vocab (cleanedOf m) with
  | some v => right; left; rfl
  | none =>
    cases h2 : lookupAssoc protoProps (cleanedOf m) with
    | some v => right; right; rfl
    | none => left; rfl

/-! ### Fuel irrelevance -/

theorem scanF_fuel : ∀ (f g : Nat) (w : Bool) (s : List Char),
    s.length ≤ f → s.length ≤ g → scanF f w s = scanF g w s := by
  intro f
  induction f with
  | zero =>
    intro g w s hf _
    obtain rfl : s = [] := List.length_eq_zero.mp (Nat.le_zero.mp hf)
    simp [scanF_nil]
  | succ f ih =>
    intro g w s hf hg
    cases s with
    | nil => simp [scanF_nil]
    | cons c ts =>
      cases g with
      | zero => simp at hg
      | succ g' =>
        by_cases hcs : canStart w c = true
        · cases hm : matchAt (c :: ts) with
          | nil =>
            rw [scanF_fail f ts hcs hm, scanF_fail g' ts hcs hm,
              ih g' (isWordChar c) ts (by simpa using hf) (by simpa using hg)]
          | cons a t =>
            rw [scanF_match f hcs hm (by simp), scanF_match g' hcs hm (by simp)]
            congr 1
            have hlen : (List.drop (a :: t).length (c :: ts)).length
                = (c :: ts).length - (a :: t).length := List.length_drop _ _
            apply ih
            · rw [hlen]; simp only [List.length_cons] at hf ⊢; omega
            · rw [hlen]; simp only [List.length_cons] at hg ⊢; omega
        · rw [scanF_emit f ts (by simpa using hcs), scanF_emit g' ts (by simpa using hcs),
            ih g' (isWordChar c) ts (by simpa using hf) (by simpa using hg)]

/-! ### Character-class bookkeeping -/

theorem phrase_of_word {c : Char} (h : isWordChar c = true) : phraseChar c = true := by
  simp [phraseChar, isWordHyphen, h]

theorem phrase_of_wordHyphen {c : Char} (h : isWordHyphen c = true) :
    phraseChar c = true := by
  simp [phraseChar, h]

theorem wordHyphen_cases {c : Char} (h : isWordHyphen c = true) :
    isWordChar c = true ∨ c = '-' := by
  rcases Bool.or_eq_true_iff.mp h with h1 | h1
  · exact Or.inl h1
  · exact Or.inr (by simpa using h1)

theorem canStart_true {w : Bool} {c : Char} (h : canStart w c = true) :
    isWordHyphen c = true ∧ isWordChar c ≠ w := by
  have := Bool.and_eq_true_iff.mp h
  exact ⟨this.1, bne_iff_ne.mp this.2⟩

theorem canStart_of {w : Bool} {c : Char} (h1 : isWordHyphen c = true)
    (h2 : isWordChar c ≠ w) : canStart w c = true := by
  unfold canStart
  rw [h1, bne_iff_ne.mpr h2]
  rfl

theorem head?_mem {l : List Char} {a : Char} (h : l.head? = some a) : a ∈ l := by
  cases l with
  | nil => simp at h
  | cons b t =>
    obtain rfl : b = a := by simpa using h
    simp

theorem getLast?_mem {l : List Char} {a : Char} (h : l.getLast? = some a) : a ∈ l := by
  rw [← List.head?_reverse] at h
  exact List.mem_reverse.mp (head?_mem h)

theorem word_not_space {c : Char} (h : isWordChar c = true) : isSpaceChar c = false := by
  cases hs : isSpaceChar c
  · rfl
  · exfalso
    have hcs : c = ' ' ∨ c = '\t' ∨ c = '\n' ∨ c = '\r' ∨ c = '\x0b' ∨ c = '\x0c' := by
      simpa [isSpaceChar, or_assoc] using hs
    rcases hcs with rfl | rfl | rfl | rfl | rfl | rfl <;> exact absurd h (by decide)

theorem wordHyphen_not_space {c : Char} (h : isWordHyphen c = true) :
    isSpaceChar c = false := by
  rcases wordHyphen_cases h with h1 | rfl
  · exact word_not_space h1
  · decide

theorem toLower_wordHyphen_not_space {c : Char} (h : isWordHyphen c = true) :
    isSpaceChar (Char.toLower c) = false := by
  cases hu : isUpperAscii c
  · rw [toLower_eq_self_of_not_upper hu]
    exact wordHyphen_not_space h
  · have hb : 65 ≤ c.toNat ∧ c.toNat ≤ 90 := by
      simpa [isUpperAscii] using hu
    simp only [Char.toLower]
    rw [if_pos ⟨hb.1, hb.2⟩]
    obtain ⟨h1, h2⟩ := hb
    generalize c.toNat = n at h1 h2 ⊢
    interval_cases n <;> decide

theorem phraseChar_toLower {c : Char} (h : phraseChar c = true) :
    phraseChar (Char.toLower c) = true := by
  cases hu : isUpperAscii c
  · rw [toLower_eq_self_of_not_upper hu]
    exact h
  · have hb : 65 ≤ c.toNat ∧ c.toNat ≤ 90 := by
      simpa [isUpperAscii] using hu
    simp only [Char.toLower]
    rw [if_pos ⟨hb.1, hb.2⟩]
    obtain ⟨h1, h2⟩ := hb
    generalize c.toNat = n at h1 h2 ⊢
    interval_cases n <;> decide

theorem map_toLower_lc (s : List Char) : ∀ c ∈ s.map Char.toLower, Char.toLower c = c := by
  intro c hc
  obtain ⟨y, _, rfl⟩ := List.mem_map.mp hc
  exact toLower_toLower y

/-! ### The prototype chain is unreachable on hit-free lowercase text

The cleaned form of any phrase is made of `Char.toLower` images, so it never
contains an ASCII uppercase letter; hence the only inherited property names it
can equal are the all-lowercase ones, `"constructor"` and `"__proto__"`.  For
a phrase actually matched by the scanner the cleaned form is the lowercased
phrase itself, so on lowercase text that contains neither name as a substring
the prototype chain is never hit. -/

theorem cleanedOf_not_upper {m : List Char} {c : Char} (h : c ∈ cleanedOf m) :
    isUpperAscii c = false := by
  unfold cleanedOf jsTrim at h
  have h1 : c ∈ (m.map Char.toLower).filter phraseChar :=
    (List.dropWhile_suffix _).subset ((List.rdropWhile_prefix _ _).subset h)
  have h2 : c ∈ m.map Char.toLower := List.mem_of_mem_filter h1
  obtain ⟨y, _, rfl⟩ := List.mem_map.mp h2
  exact toLower_not_upper y

theorem cleanedOf_match_eq {m : List Char}
    (hPH : ∀ x ∈ m, phraseChar x = true)
    (hhead : ∀ a, m.head? = some a → isWordHyphen a = true)
    (hlast : ∀ a, m.getLast? = some a → isWordChar a = true) :
    cleanedOf m = m.map Char.toLower := by
  unfold cleanedOf jsTrim
  have hfilter : (m.map Char.toLower).filter phraseChar = m.map Char.toLower := by
    rw [List.filter_eq_self]
    intro a ha
    obtain ⟨y, hy, rfl⟩ := List.mem_map.mp ha
    exact phraseChar_toLower (hPH y hy)
  rw [hfilter]
  have hdrop : List.dropWhile isSpaceChar (m.map Char.toLower) = m.map Char.toLower := by
    cases m with
    | nil => rfl
    | cons a t =>
      simp only [List.map_cons, List.dropWhile_cons]
      rw [if_neg (by simp [toLower_wordHyphen_not_space (hhead a rfl)])]
  rw [hdrop]
  apply rdropWhile_eq_self_of_last
  intro a ha
  rw [List.getLast?_map] at ha
  cases hm2 : m.getLast? with
  | none => rw [hm2] at ha; simp at ha
  | some b =>
    rw [hm2] at ha
    obtain rfl : Char.toLower b = a := by simpa using ha
    exact toLower_wordHyphen_not_space (by simp [isWordHyphen, hlast b hm2])

set_option maxHeartbeats 1000000 in
theorem protoProps_key_shape : ∀ p ∈ protoProps,
    (∃ c ∈ p.1, isUpperAscii c = true) ∨
      p.1 = "constructor".toList ∨ p.1 = "__proto__".toList := by decide

theorem proto_none_of_match {s m : List Char}
    (hLC : ∀ c ∈ s, Char.toLower c = c)
    (hNC : ¬ ("constructor".toList <:+: s))
    (hNP : ¬ ("__proto__".toList <:+: s))
    (hinf : m <:+: s)
    (hclean : cleanedOf m = m.map Char.toLower) :
    lookupAssoc protoProps (cleanedOf m) = none := by
  cases hl : lookupAssoc protoProps (cleanedOf m) with
  | none => rfl
  | some v =>
    exfalso
    have hmem := lookupAssoc_mem hl
    have hmfix : m.map Char.toLower = m := by
      have hpt : ∀ c ∈ m, Char.toLower c = c := fun c hc => hLC c (hinf.subset hc)
      calc m.map Char.toLower = m.map id := List.map_congr_left hpt
        _ = m := List.map_id m
    have hcm : cleanedOf m = m := by rw [hclean, hmfix]
    rcases protoProps_key_shape _ hmem with ⟨c, hcmem, hup⟩ | hk | hk
    · rw [cleanedOf_not_upper hcmem] at hup
      exact absurd hup (by decide)
    · rw [hcm] at hk
      exact hNC (hk ▸ hinf)
    · rw [hcm] at hk
      exact hNP (hk ▸ hinf)

/-! ### Scanning over inert (hyphen/whitespace) text and blocked tails -/

theorem blocked_scanF {q : List Char} (h : Blocked q) (f : Nat) (w : Bool) :
    Blocked (scanF f w q) := by
  cases q with
  | nil => rw [scanF_nil]; exact blocked_nil
  | cons a ts =>
    have ha : phraseChar a = false := h a rfl
    have hwh : isWordHyphen a = false := by
      unfold phraseChar at ha
      exact (Bool.or_eq_false_iff.mp ha).1
    have hcs : canStart w a = false := by
      unfold canStart
      rw [hwh]
      rfl
    cases f with
    | zero => rw [show scanF 0 w (a :: ts) = [] from rfl]; exact blocked_nil
    | succ f' =>
      rw [scanF_emit f' ts hcs]
      intro b hb
      obtain rfl : a = b := by simpa using hb
      exact ha

theorem scanF_inert : ∀ (d : List Char) (g : Nat) (w : Bool) (q : List Char),
    (∀ c ∈ d, phraseChar c = true ∧ isWordChar c = false) → Blocked q →
    scanF (d.length + g) w (d ++ q) =
      d ++ scanF g (if d.isEmpty then w else false) q := by
  intro d
  induction d with
  | nil => intro g w q _ _; simp
  | cons c d' ih =>
    intro g w q hall hq
    have hc := hall c (by simp)
    have hall' : ∀ x ∈ d', phraseChar x = true ∧ isWordChar x = false :=
      fun x hx => hall x (by simp [hx])
    have hfuel : (c :: d').length + g = (d'.length + g) + 1 := by
      simp [List.length_cons]
      omega
    rw [hfuel]
    simp only [List.cons_append]
    have hcont : scanF (d'.length + g) false (d' ++ q) = d' ++ scanF g false q := by
      rw [ih g false q hall' hq]
      congr 1
      congr 1
      exact ite_self false
    by_cases hcs : canStart w c = true
    · have hmatch : matchAt (c :: (d' ++ q)) = [] := by
        unfold matchAt
        have htw : List.takeWhile phraseChar (c :: (d' ++ q)) = c :: d' := by
          rw [List.takeWhile_cons, if_pos hc.1,
            takeWhile_append_of_all (fun x hx => (hall' x hx).1) q,
            takeWhile_eq_nil_of_blocked hq, List.append_nil]
        rw [htw]
        apply rdropWhile_eq_nil_of_all
        intro x hx
        rcases List.mem_cons.mp hx with h1 | h1
        · subst h1; simp [hc.2]
        · simp [(hall' x h1).2]
      rw [scanF_fail _ _ hcs hmatch, hc.2, hcont]
      simp
    · rw [scanF_emit _ _ (by simpa using hcs), hc.2, hcont]
      simp

theorem matchAt_exact {r d q : List Char}
    (hrPH : ∀ x ∈ r, phraseChar x = true)
    (hrlast : ∀ a, r.getLast? = some a → isWordChar a = true)
    (hd : ∀ x ∈ d, phraseChar x = true ∧ isWordChar x = false)
    (hq : Blocked q) :
    matchAt (r ++ (d ++ q)) = r := by
  unfold matchAt
  rw [show r ++ (d ++ q) = (r ++ d) ++ q from (List.append_assoc r d q).symm]
  have hallPH : ∀ x ∈ r ++ d, phraseChar x = true := by
    intro x hx
    rcases List.mem_append.mp hx with h1 | h1
    · exact hrPH x h1
    · exact (hd x h1).1
  rw [takeWhile_append_of_all hallPH q, takeWhile_eq_nil_of_blocked hq,
    List.append_nil,
    rdropWhile_append_of_all (fun x hx => by simp [(hd x hx).2]) r]
  exact rdropWhile_eq_self_of_last (fun a ha => by simp [hrlast a ha])

/-- What lies after a successful match at the head of the string: first a run
of hyphen/whitespace phrase characters (the part the final `\b` backtracked
over), then a blocked remainder. -/
theorem scan_match_decomp {w : Bool} {c : Char} {ts m : List Char}
    (hcs : canStart w c = true) (hm : matchAt (c :: ts) = m) (hne : m ≠ []) :
    ∃ d q, List.drop m.length (c :: ts) = d ++ q ∧
      (∀ x ∈ d, phraseChar x = true ∧ isWordChar x = false) ∧ Blocked q ∧
      (∀ x ∈ m, phraseChar x = true) ∧
      (∀ a, m.getLast? = some a → isWordChar a = true) ∧ m.head? = some c := by
  obtain ⟨hPH, hlast, d, hd, hdall⟩ := matchAt_spec hm hne
  refine ⟨d, List.dropWhile phraseChar (c :: ts), ?_, hdall,
    blocked_dropWhile_phrase _, hPH, hlast, ?_⟩
  · have hsplit : c :: ts = m ++ (d ++ List.dropWhile phraseChar (c :: ts)) := by
      conv_lhs => rw [← List.takeWhile_append_dropWhile (p := phraseChar) (l := c :: ts)]
      rw [hd, List.append_assoc]
    conv_lhs => rw [hsplit]
    rw [List.drop_left]
  · obtain ⟨m', hm'⟩ := matchAt_head hm (phrase_of_wordHyphen (canStart_true hcs).1) hne
    rw [hm']
    rfl

/-! ### Piece decomposition of a scan

A scan splits the input into contiguous pieces: unchanged characters, and
matched phrases replaced through the lookup (own vocabulary keys first, then
the inherited `Object.prototype` properties).  For a replaced piece the source
is a contiguous substring of the input and its cleaned form is just its
lowercased self. -/

theorem scanF_pieces : ∀ (f : Nat) (w : Bool) (s : List Char), s.length ≤ f →
    ∃ ps : List (List Char × List Char),
      (ps.map Prod.fst).flatten = s ∧
      (ps.map Prod.snd).flatten = scanF f w s ∧
      ∀ p ∈ ps, p.2 = p.1 ∨
        ((lookupAssoc vocab (cleanedOf p.1) = some p.2 ∨
            lookupAssoc protoProps (cleanedOf p.1) = some p.2) ∧
          p.1 <:+: s ∧ cleanedOf p.1 = p.1.map Char.toLower) := by
  intro f
  induction f with
  | zero =>
    intro w s hf
    obtain rfl : s = [] := List.length_eq_zero.mp (Nat.le_zero.mp hf)
    exact ⟨[], by simp, by simp [scanF_nil], by simp⟩
  | succ f' ih =>
    intro w s hf
    cases s with
    | nil => exact ⟨[], by simp, by simp [scanF_nil], by simp⟩
    | cons c ts =>
      by_cases hcs : canStart w c = true
      · rcases hm : matchAt (c :: ts) with _ | ⟨a, t⟩
        · obtain ⟨ps, h1, h2, h3⟩ := ih (isWordChar c) ts (by simpa using hf)
          refine ⟨([c], [c]) :: ps, by simp [h1], ?_, ?_⟩
          · rw [scanF_fail f' ts hcs hm]
            simp [h2]
          · intro p hp
            rcases List.mem_cons.mp hp with h4 | h4
            · rw [h4]; left; rfl
            · rcases h3 p h4 with h5 | ⟨h5, h6, h7⟩
              · exact Or.inl h5
              · exact Or.inr ⟨h5, h6.trans (List.suffix_cons c ts).isInfix, h7⟩
        · have hne : (a :: t) ≠ [] := by simp
          have hm_len : (a :: t).length ≤ (c :: ts).length := by
            rw [← hm]; exact matchAt_length_le _
          have hd_len : (List.drop (a :: t).length (c :: ts)).length ≤ f' := by
            rw [List.length_drop]
            simp only [List.length_cons] at hm_len hf ⊢
            omega
          obtain ⟨ps, h1, h2, h3⟩ := ih true (List.drop (a :: t).length (c :: ts)) hd_len
          obtain ⟨hPH, hlast, _⟩ := matchAt_spec hm hne
          obtain ⟨m', hm'⟩ :=
            matchAt_head hm (phrase_of_wordHyphen (canStart_true hcs).1) hne
          have hhead : ∀ x, (a :: t).head? = some x → isWordHyphen x = true := by
            intro x hx
            rw [hm'] at hx
            obtain rfl : c = x := by simpa using hx
            exact (canStart_true hcs).1
          have hclean : cleanedOf (a :: t) = (a :: t).map Char.toLower :=
            cleanedOf_match_eq hPH hhead hlast
          have hpre : (a :: t) <+: (c :: ts) := by
            rw [← hm]
            exact (List.rdropWhile_prefix _ _).trans (List.takeWhile_prefix _)
          refine ⟨((a :: t), applyMap (a :: t)) :: ps, ?_, ?_, ?_⟩
          · simp only [List.map_cons, List.flatten_cons, h1]
            have hdec := matchAt_prefix_decomp (c :: ts)
            rw [hm] at hdec
            exact hdec.symm
          · rw [scanF_match f' hcs hm hne]
            simp [h2]
          · intro p hp
            rcases List.mem_cons.mp hp with h4 | h4
            · rw [h4]
              rcases applyMap_or (a :: t) with h5 | h5
              · exact Or.inl h5
              · exact Or.inr ⟨h5, hpre.isInfix, hclean⟩
            · rcases h3 p h4 with h5 | ⟨h5, h6, h7⟩
              · exact Or.inl h5
              · exact Or.inr ⟨h5, h6.trans (List.drop_suffix _ _).isInfix, h7⟩
      · obtain ⟨ps, h1, h2, h3⟩ := ih (isWordChar c) ts (by simpa using hf)
        refine ⟨([c], [c]) :: ps, by simp [h1], ?_, ?_⟩
        · rw [scanF_emit f' ts (by simpa using hcs)]
          simp [h2]
        · intro p hp
          rcases List.mem_cons.mp hp with h4 | h4
          · rw [h4]; left; rfl
          · rcases h3 p h4 with h5 | ⟨h5, h6, h7⟩
            · exact Or.inl h5
            · exact Or.inr ⟨h5, h6.trans (List.suffix_cons c ts).isInfix, h7⟩

/-- On lowercase text without an occurrence of `"constructor"` or
`"__proto__"`, the prototype chain is never consulted: every replaced piece is
a vocabulary hit. -/
theorem scanF_safe_pieces {f : Nat} {w : Bool} {s : List Char} (hf : s.length ≤ f)
    (hLC : ∀ c ∈ s, Char.toLower c = c)
    (hNC : ¬ ("constructor".toList <:+: s))
    (hNP : ¬ ("__proto__".toList <:+: s)) :
    ∃ ps : List (List Char × List Char),
      (ps.map Prod.fst).flatten = s ∧
      (ps.map Prod.snd).flatten = scanF f w s ∧
      ∀ p ∈ ps, p.2 = p.1 ∨ lookupAssoc vocab (cleanedOf p.1) = some p.2 := by
  obtain ⟨ps, h1, h2, h3⟩ := scanF_pieces f w s hf
  refine ⟨ps, h1, h2, ?_⟩
  intro p hp
  rcases h3 p hp with h4 | ⟨hlk, hinf, hclean⟩
  · exact Or.inl h4
  rcases hlk with hv | hproto
  · exact Or.inr hv
  · exfalso
    rw [proto_none_of_match hLC hNC hNP hinf hclean] at hproto
    exact absurd hproto (by simp)

theorem pieces_flatten_length_le {ps : List (List Char × List Char)}
    (h : ∀ p ∈ ps, p.2.length ≤ p.1.length) :
    ((ps.map Prod.snd).flatten).length ≤ ((ps.map Prod.fst).flatten).length := by
  induction ps with
  | nil => simp
  | cons p t ih =>
    simp only [List.map_cons, List.flatten_cons, List.length_append]
    have h1 := h p (by simp)
    have h2 := ih (fun q hq => h q (by simp [hq]))
    omega

theorem scanF_length_le_safe {f : Nat} {w : Bool} {s : List Char} (hf : s.length ≤ f)
    (hLC : ∀ c ∈ s, Char.toLower c = c)
    (hNC : ¬ ("constructor".toList <:+: s))
    (hNP : ¬ ("__proto__".toList <:+: s)) :
    (scanF f w s).length ≤ s.length := by
  obtain ⟨ps, h1, h2, h3⟩ := scanF_safe_pieces hf hLC hNC hNP
  rw [← h2, ← h1]
  apply pieces_flatten_length_le
  intro p hp
  rcases h3 p hp with h4 | h4
  · rw [h4]
  · have hm2 := lookupAssoc_mem h4
    exact Nat.le_trans (vocab_val_len (cleanedOf p.1, p.2) hm2) (cleanedOf_length_le p.1)

theorem scanF_mem_safe {f : Nat} {w : Bool} {s : List Char} (hf : s.length ≤ f)
    (hLC : ∀ c ∈ s, Char.toLower c = c)
    (hNC : ¬ ("constructor".toList <:+: s))
    (hNP : ¬ ("__proto__".toList <:+: s))
    {c : Char} (hc : c ∈ scanF f w s) :
    c ∈ s ∨ ∃ p ∈ vocab, c ∈ p.2 := by
  obtain ⟨ps, h1, h2, h3⟩ := scanF_safe_pieces hf hLC hNC hNP
  rw [← h2] at hc
  obtain ⟨l, hl, hcl⟩ := List.mem_flatten.mp hc
  obtain ⟨p, hp, rfl⟩ := List.mem_map.mp hl
  rcases h3 p hp with h4 | h4
  · left
    rw [← h1]
    exact List.mem_flatten.mpr ⟨p.1, List.mem_map.mpr ⟨p, hp, rfl⟩, h4 ▸ hcl⟩
  · right
    exact ⟨_, lookupAssoc_mem h4, hcl⟩

/-! ### Matches whose phrase starts with a hyphen are never replaced -/

theorem head?_rdropWhile_of_head {p : Char → Bool} {l : List Char} {a : Char}
    (hl : l.head? = some a) (ha : p a = false) :
    (List.rdropWhile p l).head? = some a := by
  have hdec := rdropWhile_decomp p l
  cases hr : List.rdropWhile p l with
  | nil =>
    exfalso
    have hall := List.rdropWhile_eq_nil_iff.mp hr
    have := hall a (head?_mem hl)
    simp [this] at ha
  | cons b t =>
    rw [hr] at hdec
    rw [hdec] at hl
    simpa using hl

theorem cleanedOf_head_hyphen {m : List Char} (hm : m.head? = some '-') :
    (cleanedOf m).head? = some '-' := by
  cases m with
  | nil => simp at hm
  | cons a m' =>
    obtain rfl : a = '-' := by simpa using hm
    unfold cleanedOf jsTrim
    have h1 : (('-' :: m').map Char.toLower).filter phraseChar
        = '-' :: (m'.map Char.toLower).filter phraseChar := by
      have : Char.toLower '-' = '-' := by decide
      simp [List.map_cons, this, List.filter_cons]
      decide
    rw [h1]
    have h2 : List.dropWhile isSpaceChar ('-' :: (m'.map Char.toLower).filter phraseChar)
        = '-' :: (m'.map Char.toLower).filter phraseChar := by
      rw [List.dropWhile_cons]
      have : isSpaceChar '-' = false := by decide
      rw [this]
      simp
    rw [h2]
    exact head?_rdropWhile_of_head rfl (by decide)

/-- The replacement of a successful match is itself a stable phrase: nonempty,
made of phrase characters, ending in a `\w` character, starting at a valid
match position, and a fixed point of the replacement callback. -/
theorem applyMap_step {w : Bool} {c : Char} {m : List Char}
    (hcs : canStart w c = true) (hmhead : m.head? = some c)
    (hmPH : ∀ x ∈ m, phraseChar x = true)
    (hmlast : ∀ a, m.getLast? = some a → isWordChar a = true)
    (hproto : lookupAssoc protoProps (cleanedOf m) = none) :
    applyMap m ≠ [] ∧
    (∀ x ∈ applyMap m, phraseChar x = true) ∧
    (∀ x, (applyMap m).getLast? = some x → isWordChar x = true) ∧
    (∀ h0, (applyMap m).head? = some h0 → canStart w h0 = true) ∧
    applyMap (applyMap m) = applyMap m := by
  cases hl : lookupAssoc vocab (cleanedOf m) with
  | none =>
    have hr : applyMap m = m := by unfold applyMap; rw [hl, hproto]
    rw [hr]
    refine ⟨?_, hmPH, hmlast, ?_, hr⟩
    · intro hnil
      rw [hnil] at hmhead
      simp at hmhead
    · intro h0 hh0
      rw [hmhead] at hh0
      obtain rfl : c = h0 := by simpa using hh0
      exact hcs
  | some v =>
    have hr : applyMap m = v := by unfold applyMap; rw [hl]
    have hvmem := lookupAssoc_mem hl
    obtain ⟨hvne, hvall⟩ := vocab_val_word _ hvmem
    have hcword : isWordChar c = true := by
      rcases wordHyphen_cases (canStart_true hcs).1 with h1 | h1
      · exact h1
      · exfalso
        have hch : (cleanedOf m).head? = some '-' := by
          apply cleanedOf_head_hyphen
          rw [hmhead, h1]
        exact vocab_key_no_hyphen_head _ hvmem hch
    have hw : w = false := by
      have h2 := (canStart_true hcs).2
      rw [hcword] at h2
      cases w
      · rfl
      · exact absurd rfl h2
    rw [hr]
    refine ⟨hvne, ?_, ?_, ?_, ?_⟩
    · exact fun x hx => phrase_of_word (hvall x hx)
    · exact fun x hx => hvall x (getLast?_mem hx)
    · intro h0 hh0
      have hword : isWordChar h0 = true := hvall h0 (head?_mem hh0)
      apply canStart_of
      · simp [isWordHyphen, hword]
      · rw [hword, hw]
        exact (by decide)
    · exact vocab_val_fix _ hvmem

set_option maxHeartbeats 1000000 in
/-- Scanning is idempotent on lowercase text that contains neither
`"constructor"` nor `"__proto__"` as a substring (so that no phrase is
replaced through the prototype chain): a second pass over the output of a
pass changes nothing (with any sufficient fuel). -/
theorem scanF_idem : ∀ (f : Nat) (w : Bool) (s : List Char), s.length ≤ f →
    (∀ c ∈ s, Char.toLower c = c) →
    ¬ ("constructor".toList <:+: s) → ¬ ("__proto__".toList <:+: s) →
    scanF f w (scanF f w s) = scanF f w s := by
  intro f
  induction f using Nat.strong_induction_on with
  | _ f ih =>
    intro w s hf hLC hNC hNP
    cases f with
    | zero =>
      obtain rfl : s = [] := List.length_eq_zero.mp (Nat.le_zero.mp hf)
      simp [scanF_nil]
    | succ f' =>
      cases s with
      | nil => simp [scanF_nil]
      | cons c ts =>
        have hts_len : ts.length ≤ f' := by
          simpa [List.length_cons] using hf
        have hsuf_ts : ts <:+ (c :: ts) := List.suffix_cons c ts
        have hLC_ts : ∀ x ∈ ts, Char.toLower x = x :=
          fun x hx => hLC x (List.mem_cons_of_mem c hx)
        have hNC_ts : ¬ ("constructor".toList <:+: ts) :=
          fun hk => hNC (hk.trans hsuf_ts.isInfix)
        have hNP_ts : ¬ ("__proto__".toList <:+: ts) :=
          fun hk => hNP (hk.trans hsuf_ts.isInfix)
        by_cases hcs : canStart w c = true
        · rcases hm : matchAt (c :: ts) with _ | ⟨a, t⟩
          · -- failed attempt: `c` is a hyphen in inert context
            have hcPH : phraseChar c = true :=
              phrase_of_wordHyphen (canStart_true hcs).1
            have hcW : isWordChar c = false := by
              apply matchAt_empty_all hm
              rw [List.takeWhile_cons, if_pos hcPH]
              simp
            have hP'all : ∀ x ∈ List.takeWhile phraseChar ts,
                phraseChar x = true ∧ isWordChar x = false := by
              intro x hx
              refine ⟨List.mem_takeWhile_imp hx, ?_⟩
              apply matchAt_empty_all hm
              rw [List.takeWhile_cons, if_pos hcPH]
              simp [hx]
            have hqB : Blocked (List.dropWhile phraseChar ts) :=
              blocked_dropWhile_phrase ts
            have hts : ts = List.takeWhile phraseChar ts ++ List.dropWhile phraseChar ts :=
              (List.takeWhile_append_dropWhile (p := phraseChar) (l := ts)).symm
            have hq_len : (List.dropWhile phraseChar ts).length ≤ ts.length :=
              (List.dropWhile_suffix _).length_le
            have hsuf_q : List.dropWhile phraseChar ts <:+ ts := List.dropWhile_suffix _
            have hLC_q : ∀ x ∈ List.dropWhile phraseChar ts, Char.toLower x = x :=
              fun x hx => hLC_ts x (hsuf_q.subset hx)
            have hNC_q : ¬ ("constructor".toList <:+: List.dropWhile phraseChar ts) :=
              fun hk => hNC_ts (hk.trans hsuf_q.isInfix)
            have hNP_q : ¬ ("__proto__".toList <:+: List.dropWhile phraseChar ts) :=
              fun hk => hNP_ts (hk.trans hsuf_q.isInfix)
            have hJdef : scanF f' false ts
                = List.takeWhile phraseChar ts ++
                  scanF (List.dropWhile phraseChar ts).length false
                    (List.dropWhile phraseChar ts) := by
              conv_lhs => rw [hts]
              rw [scanF_fuel f'
                  ((List.takeWhile phraseChar ts).length +
                    (List.dropWhile phraseChar ts).length)
                  false _ (by rw [← hts]; exact hts_len)
                  (by rw [List.length_append]),
                scanF_inert _ _ false _ hP'all hqB]
              congr 1
              congr 1
              exact ite_self false
            have hJB : Blocked (scanF (List.dropWhile phraseChar ts).length false
                (List.dropWhile phraseChar ts)) := blocked_scanF hqB _ _
            have hJ_len : (scanF (List.dropWhile phraseChar ts).length false
                (List.dropWhile phraseChar ts)).length
                ≤ (List.dropWhile phraseChar ts).length :=
              scanF_length_le_safe (Nat.le_refl _) hLC_q hNC_q hNP_q
            rw [scanF_fail f' ts hcs hm, hcW, hJdef]
            have hmatch2 : matchAt (c :: (List.takeWhile phraseChar ts ++
                scanF (List.dropWhile phraseChar ts).length false
                  (List.dropWhile phraseChar ts))) = [] := by
              unfold matchAt
              rw [List.takeWhile_cons, if_pos hcPH,
                takeWhile_append_of_all (fun x hx => (hP'all x hx).1) _,
                takeWhile_eq_nil_of_blocked hJB, List.append_nil]
              apply rdropWhile_eq_nil_of_all
              intro x hx
              rcases List.mem_cons.mp hx with h1 | h1
              · subst h1; simp [hcW]
              · simp [(hP'all x h1).2]
            rw [scanF_fail f' _ hcs hmatch2, hcW]
            congr 1
            rw [scanF_fuel f'
                ((List.takeWhile phraseChar ts).length +
                  (scanF (List.dropWhile phraseChar ts).length false
                    (List.dropWhile phraseChar ts)).length)
                false _
                (by
                  rw [List.length_append]
                  have h1 : (List.takeWhile phraseChar ts).length +
                      (List.dropWhile phraseChar ts).length = ts.length := by
                    rw [← List.length_append, ← hts]
                  omega)
                (by rw [List.length_append]),
              scanF_inert _ _ false _ hP'all hJB]
            congr 1
            rw [ite_self]
            rw [scanF_fuel _ (List.dropWhile phraseChar ts).length false _
                (Nat.le_refl _) hJ_len]
            exact ih (List.dropWhile phraseChar ts).length
              (by omega) false (List.dropWhile phraseChar ts) (Nat.le_refl _)
              hLC_q hNC_q hNP_q
          · -- successful match
            have hne : (a :: t) ≠ [] := by simp
            obtain ⟨d, q, hdrop, hdall, hqB, hmPH, hmlast, hmhead⟩ :=
              scan_match_decomp hcs hm hne
            have hheadWH : ∀ x, (a :: t).head? = some x → isWordHyphen x = true := by
              intro x hx
              rw [hmhead] at hx
              obtain rfl : c = x := by simpa using hx
              exact (canStart_true hcs).1
            have hpre : (a :: t) <+: (c :: ts) := by
              rw [← hm]
              exact (List.rdropWhile_prefix _ _).trans (List.takeWhile_prefix _)
            have hproto : lookupAssoc protoProps (cleanedOf (a :: t)) = none :=
              proto_none_of_match hLC hNC hNP hpre.isInfix
                (cleanedOf_match_eq hmPH hheadWH hmlast)
            obtain ⟨hrne, hrPH, hrlast, hrhead, hrfix⟩ :=
              applyMap_step hcs hmhead hmPH hmlast hproto
            have hm_len : (a :: t).length ≤ (c :: ts).length := by
              rw [← hm]; exact matchAt_length_le _
            have hdq_len : (d ++ q).length ≤ f' := by
              have h1 : (List.drop (a :: t).length (c :: ts)).length
                  = (c :: ts).length - (a :: t).length := List.length_drop _ _
              rw [hdrop] at h1
              simp only [List.length_cons] at h1 hm_len hf
              omega
            have hq_len : q.length ≤ f' := by
              rw [List.length_append] at hdq_len
              omega
            have hsuf_q2 : q <:+ (c :: ts) :=
              (List.suffix_append d q).trans
                (hdrop ▸ List.drop_suffix (a :: t).length (c :: ts))
            have hLC_q2 : ∀ x ∈ q, Char.toLower x = x :=
              fun x hx => hLC x (hsuf_q2.subset hx)
            have hNC_q2 : ¬ ("constructor".toList <:+: q) :=
              fun hk => hNC (hk.trans hsuf_q2.isInfix)
            have hNP_q2 : ¬ ("__proto__".toList <:+: q) :=
              fun hk => hNP (hk.trans hsuf_q2.isInfix)
            -- the inner scan result
            rw [scanF_match f' hcs hm hne, hdrop]
            have hKdef : scanF f' true (d ++ q)
                = d ++ scanF q.length (if d.isEmpty then true else false) q := by
              rw [scanF_fuel f' (d.length + q.length) true _
                  hdq_len
                  (by rw [List.length_append]),
                scanF_inert d q.length true q hdall hqB]
            rw [hKdef]
            have hKB : Blocked (scanF q.length (if d.isEmpty then true else false) q) :=
              blocked_scanF hqB _ _
            have hK_len : (scanF q.length (if d.isEmpty then true else false) q).length
                ≤ q.length := scanF_length_le_safe (Nat.le_refl _) hLC_q2 hNC_q2 hNP_q2
            obtain ⟨r0, r', hr⟩ : ∃ r0 r', applyMap (a :: t) = r0 :: r' := by
              cases hx : applyMap (a :: t) with
              | nil => exact absurd hx hrne
              | cons r0 r' => exact ⟨r0, r', rfl⟩
            rw [hr]
            have hr0cs : canStart w r0 = true := by
              apply hrhead
              rw [hr]
              rfl
            have hrPH' : ∀ x ∈ r0 :: r', phraseChar x = true := by
              rw [← hr]; exact hrPH
            have hrlast' : ∀ x, (r0 :: r').getLast? = some x → isWordChar x = true := by
              rw [← hr]; exact hrlast
            have hmatch2 : matchAt ((r0 :: r') ++
                (d ++ scanF q.length (if d.isEmpty then true else false) q))
                = r0 :: r' := matchAt_exact hrPH' hrlast' hdall hKB
            rw [List.cons_append] at hmatch2 ⊢
            rw [scanF_match f' hr0cs hmatch2 (by simp)]
            have happ : applyMap (r0 :: r') = r0 :: r' := by
              rw [← hr]
              exact hrfix
            rw [happ]
            rw [← List.cons_append, List.drop_left]
            congr 1
            have hdq_len2 : d.length + q.length ≤ f' := by
              have h2 := hdq_len
              rw [List.length_append] at h2
              exact h2
            rw [scanF_fuel f'
                (d.length + (scanF q.length (if d.isEmpty then true else false) q).length)
                true _
                (by rw [List.length_append]; omega)
                (by rw [List.length_append]),
              scanF_inert d _ true _ hdall hKB]
            congr 1
            rw [scanF_fuel _ q.length (if d.isEmpty then true else false) _
                (Nat.le_refl _) hK_len]
            exact ih q.length (by omega) (if d.isEmpty then true else false) q
              (Nat.le_refl _) hLC_q2 hNC_q2 hNP_q2
        · rw [scanF_emit f' ts (by simpa using hcs)]
          rw [scanF_emit f' _ (by simpa using hcs)]
          congr 1
          exact ih f' (Nat.lt_succ_self f') (isWordChar c) ts hts_len
            hLC_ts hNC_ts hNP_ts

/-! ### Consequences for `normalizeNumbers` -/

theorem normalizeNumbers_chars_safe {s : List Char}
    (hNC : ¬ ("constructor".toList <:+: s.map Char.toLower))
    (hNP : ¬ ("__proto__".toList <:+: s.map Char.toLower))
    {c : Char} (hc : c ∈ normalizeNumbers s) : isUpperAscii c = false := by
  have hc2 : c ∈ scanF (s.map Char.toLower).length false (s.map Char.toLower) := hc
  rcases scanF_mem_safe (Nat.le_refl _) (map_toLower_lc s) hNC hNP hc2 with
    h1 | ⟨p, hp, hcp⟩
  · obtain ⟨y, _, rfl⟩ := List.mem_map.mp h1
    exact toLower_not_upper y
  · exact vocab_val_not_upper p hp c hcp

theorem normalizeNumbers_idem_safe (s : List Char)
    (hNC : ¬ ("constructor".toList <:+: s.map Char.toLower))
    (hNP : ¬ ("__proto__".toList <:+: s.map Char.toLower)) :
    normalizeNumbers (normalizeNumbers s) = normalizeNumbers s := by
  have h1 : (normalizeNumbers s).map Char.toLower = normalizeNumbers s :=
    map_toLower_eq_self (fun c hc => normalizeNumbers_chars_safe hNC hNP hc)
  show runScan false ((normalizeNumbers s).map Char.toLower) = normalizeNumbers s
  rw [h1]
  show scanF (normalizeNumbers s).length false (normalizeNumbers s) = normalizeNumbers s
  have hlen : (normalizeNumbers s).length ≤ (s.map Char.toLower).length :=
    scanF_length_le_safe (Nat.le_refl _) (map_toLower_lc s) hNC hNP
  rw [scanF_fuel (normalizeNumbers s).length (s.map Char.toLower).length false
      (normalizeNumbers s) (Nat.le_refl _) hlen]
  show scanF (s.map Char.toLower).length false
      (scanF (s.map Char.toLower).length false (s.map Char.toLower)) = normalizeNumbers s
  exact scanF_idem _ false _ (Nat.le_refl _) (map_toLower_lc s) hNC hNP

set_option maxHeartbeats 4000000 in
theorem vocab_standalone : ∀ p ∈ vocab, scanF p.1.length false p.1 = p.2 := by decide

/-! ### Round trip of the JSON codec -/

theorem hexVal_hexDigit {n : Nat} (h : n < 16) : hexVal (hexDigit n) = some n := by
  interval_cases n <;> decide

theorem escChar_length_pos (c : Char) : 1 ≤ (escChar c).length := by
  unfold escChar
  split_ifs <;> simp

theorem escapeJson_length_ge (s : List Char) : s.length ≤ (escapeJson s).length := by
  induction s with
  | nil => simp [escapeJson]
  | cons c t ih =>
    have h1 := escChar_length_pos c
    simp only [escapeJson, List.map_cons, List.flatten_cons, List.length_append,
      List.length_cons] at ih ⊢
    omega

theorem expectLit_append : ∀ (p r : List Char), expectLit p (p ++ r) = some r := by
  intro p
  induction p with
  | nil => intro r; rfl
  | cons c t ih => intro r; simp [expectLit, ih]

theorem parseStr_escape : ∀ (s : List Char) (f : Nat) (rest : List Char),
    s.length < f →
    parseStr f (escapeJson s ++ '"' :: rest) = some (s, rest) := by
  intro s
  induction s with
  | nil =>
    intro f rest hf
    cases f with
    | zero => omega
    | succ f' =>
      show parseStr (f' + 1) ([] ++ '"' :: rest) = some ([], rest)
      simp [parseStr]
  | cons c s' ih =>
    intro f rest hf
    cases f with
    | zero => omega
    | succ f' =>
      have hf' : s'.length < f' := by
        simp only [List.length_cons] at hf
        omega
      have hesc : escapeJson (c :: s') = escChar c ++ escapeJson s' := by
        simp [escapeJson]
      rw [hesc, List.append_assoc]
      by_cases h1 : c = '"'
      · subst h1
        show parseStr (f' + 1) ('\\' :: '"' :: (escapeJson s' ++ '"' :: rest)) = _
        simp [parseStr, ih f' rest hf']
      · by_cases h2 : c = '\\'
        · subst h2
          show parseStr (f' + 1) ('\\' :: '\\' :: (escapeJson s' ++ '"' :: rest)) = _
          simp [parseStr, ih f' rest hf']
        · by_cases h3 : c = '\x08'
          · subst h3
            show parseStr (f' + 1) ('\\' :: 'b' :: (escapeJson s' ++ '"' :: rest)) = _
            simp [parseStr, ih f' rest hf']
          · by_cases h4 : c = '\x0c'
            · subst h4
              show parseStr (f' + 1) ('\\' :: 'f' :: (escapeJson s' ++ '"' :: rest)) = _
              simp [parseStr, ih f' rest hf']
            · by_cases h5 : c = '\n'
              · subst h5
                show parseStr (f' + 1) ('\\' :: 'n' :: (escapeJson s' ++ '"' :: rest)) = _
                simp [parseStr, ih f' rest hf']
              · by_cases h6 : c = '\r'
                · subst h6
                  show parseStr (f' + 1) ('\\' :: 'r' :: (escapeJson s' ++ '"' :: rest)) = _
                  simp [parseStr, ih f' rest hf']
                · by_cases h7 : c = '\t'
                  · subst h7
                    show parseStr (f' + 1) ('\\' :: 't' :: (escapeJson s' ++ '"' :: rest)) = _
                    simp [parseStr, ih f' rest hf']
                  · by_cases h8 : c.toNat < 32
                    · have he : escChar c =
                          ['\\', 'u', '0', '0', hexDigit (c.toNat / 16),
                            hexDigit (c.toNat % 16)] := by
                        unfold escChar
                        rw [if_neg h1, if_neg h2, if_neg h3, if_neg h4, if_neg h5,
                          if_neg h6, if_neg h7, if_pos h8]
                      rw [he]
                      show parseStr (f' + 1) ('\\' :: 'u' :: '0' :: '0' ::
                        hexDigit (c.toNat / 16) :: hexDigit (c.toNat % 16) ::
                        (escapeJson s' ++ '"' :: rest)) = _
                      have hhi : hexVal (hexDigit (c.toNat / 16)) = some (c.toNat / 16) :=
                        hexVal_hexDigit (by omega)
                      have hlo : hexVal (hexDigit (c.toNat % 16)) = some (c.toNat % 16) :=
                        hexVal_hexDigit (by omega)
                      have hval : ((0 * 16 + 0) * 16 + c.toNat / 16) * 16 + c.toNat % 16
                          = c.toNat := by omega
                      have hval2 : c.toNat / 16 * 16 + c.toNat % 16 = c.toNat := by
                        omega
                      simp [parseStr, hhi, hlo, ih f' rest hf', hval, hval2,
                        (show hexVal '0' = some 0 by decide)]
                    · have he : escChar c = [c] := by
                        unfold escChar
                        rw [if_neg h1, if_neg h2, if_neg h3, if_neg h4, if_neg h5,
                          if_neg h6, if_neg h7, if_neg h8]
                      rw [he]
                      show parseStr (f' + 1) (c :: (escapeJson s' ++ '"' :: rest)) = _
                      simp [parseStr, h1, h2, h8, ih f' rest hf']

theorem parseNote_noteJson (n : Note) (f : Nat) (rest : List Char)
    (h1 : n.id.length < f) (h2 : n.text.length < f) (h3 : n.createdAt.length < f) :
    parseNote f (noteJson n ++ rest) = some (n, rest) := by
  have e1 : "\",\"text\":\"".toList = '"' :: ",\"text\":\"".toList := by decide
  have e2 : "\",\"createdAt\":\"".toList = '"' :: ",\"createdAt\":\"".toList := by
    decide
  have e3 : "\"\x7d".toList = '"' :: '\x7d' :: [] := by decide
  have hshape : noteJson n ++ rest
      = "\x7b\"id\":\"".toList ++ (escapeJson n.id ++ '"' ::
        (",\"text\":\"".toList ++ (escapeJson n.text ++ '"' ::
        (",\"createdAt\":\"".toList ++ (escapeJson n.createdAt ++ '"' ::
        ('\x7d' :: rest)))))) := by
    unfold noteJson
    rw [e1, e2, e3]
    simp
  unfold parseNote
  simp only [hshape, expectLit_append, parseStr_escape, h1, h2, h3]

theorem noteJson_length_gt (n : Note) :
    n.id.length < (noteJson n).length ∧ n.text.length < (noteJson n).length ∧
    n.createdAt.length < (noteJson n).length := by
  have hid := escapeJson_length_ge n.id
  have htx := escapeJson_length_ge n.text
  have hca := escapeJson_length_ge n.createdAt
  have l1 : ("\x7b\"id\":\"".toList).length = 7 := by decide
  have l2 : ("\",\"text\":\"".toList).length = 10 := by decide
  have l3 : ("\",\"createdAt\":\"".toList).length = 15 := by decide
  have l4 : ("\"\x7d".toList).length = 2 := by decide
  unfold noteJson
  simp only [List.length_append, l1, l2, l3, l4]
  omega

theorem parseItems_rt : ∀ (ns : List Note) (f : Nat), ns ≠ [] →
    (joinComma (ns.map noteJson) ++ [']']).length ≤ f →
    parseItems f (joinComma (ns.map noteJson) ++ [']']) = some ns := by
  intro ns
  induction ns with
  | nil => intro f hne _; exact absurd rfl hne
  | cons n ns' ih =>
    intro f _ hlen
    obtain ⟨g1, g2, g3⟩ := noteJson_length_gt n
    cases ns' with
    | nil =>
      have hj : joinComma ((n :: []).map noteJson) = noteJson n := rfl
      rw [hj] at hlen ⊢
      cases f with
      | zero =>
        exfalso
        simp [List.length_append] at hlen
      | succ f' =>
        have hb : (noteJson n).length + 1 ≤ f' + 1 := by
          simpa [List.length_append] using hlen
        unfold parseItems
        rw [parseNote_noteJson n (f' + 1) [']'] (by omega) (by omega) (by omega)]
        simp
    | cons n2 ns'' =>
      have hj : joinComma ((n :: n2 :: ns'').map noteJson)
          = noteJson n ++ ',' :: joinComma ((n2 :: ns'').map noteJson) := rfl
      rw [hj] at hlen ⊢
      cases f with
      | zero =>
        exfalso
        simp [List.length_append] at hlen
      | succ f' =>
        have hb : (noteJson n).length + 1 +
            (joinComma ((n2 :: ns'').map noteJson) ++ [']']).length ≤ f' + 1 := by
          have := hlen
          simp only [List.cons_append, List.append_assoc, List.length_append,
            List.length_cons] at this ⊢
          omega
        have hshape : (noteJson n ++ ',' :: joinComma ((n2 :: ns'').map noteJson)) ++ [']']
            = noteJson n ++ ',' :: (joinComma ((n2 :: ns'').map noteJson) ++ [']']) := by
          simp
        rw [hshape]
        unfold parseItems
        rw [parseNote_noteJson n (f' + 1)
          (',' :: (joinComma ((n2 :: ns'').map noteJson) ++ [']']))
          (by omega) (by omega) (by omega)]
        simp only []
        rw [ih f' (by simp) (by omega)]

theorem noteJson_head (n : Note) :
    noteJson n = '\x7b' :: ("\"id\":\"".toList ++ escapeJson n.id ++
      "\",\"text\":\"".toList ++ escapeJson n.text ++
      "\",\"createdAt\":\"".toList ++ escapeJson n.createdAt ++ "\"\x7d".toList) := by
  have hlit : "\x7b\"id\":\"".toList = '\x7b' :: "\"id\":\"".toList := by decide
  unfold noteJson
  rw [hlit]
  simp

theorem parseNotes_stringify (ns : List Note) :
    parseNotes (stringifyNotes ns) = some ns := by
  cases ns with
  | nil => rfl
  | cons n ns' =>
    obtain ⟨Y, hY⟩ : ∃ Y, joinComma ((n :: ns').map noteJson) = '\x7b' :: Y := by
      cases ns' with
      | nil =>
        exact ⟨_, noteJson_head n⟩
      | cons n2 ns'' =>
        refine ⟨"\"id\":\"".toList ++ escapeJson n.id ++ "\",\"text\":\"".toList ++
          escapeJson n.text ++ "\",\"createdAt\":\"".toList ++ escapeJson n.createdAt ++
          "\"\x7d".toList ++ ',' :: joinComma ((n2 :: ns'').map noteJson), ?_⟩
        show noteJson n ++ ',' :: joinComma ((n2 :: ns'').map noteJson) = _
        rw [noteJson_head n]
        simp
    unfold stringifyNotes parseNotes
    rw [hY, List.cons_append]
    have := parseItems_rt (n :: ns') ('\x7b' :: (Y ++ [']'])).length (by simp)
      (by rw [hY]; simp)
    rw [hY, List.cons_append] at this
    exact this

theorem hydrate_persist (ns : List Note) :
    hydrate (some (persistNotes ns)) = Except.ok ns := by
  have h1 : persistNotes ns ≠ [] := by
    unfold persistNotes stringifyNotes
    simp
  unfold hydrate
  simp only []
  rw [if_neg h1]
  unfold persistNotes
  rw [parseNotes_stringify]

/-! ### Claim theorems -/

/-- Claim C1 (counterexample): the claim says `add("   ")` never increases the
notes collection size, but `addNote` has no empty-after-trim rejection: adding
the all-whitespace string to the empty store yields a store of size 1 (with an
empty-text note), not 0. -/
theorem C1_counterexample :
    (addNote "x".toList "t".toList "   ".toList []).length = 1 ∧
    jsTrim ("   ".toList) = [] := by decide

/-- Claim C1 (amended): `addNote(text)` trims the input and always inserts
exactly one new Note at the head whose text is the trimmed input — also when
the input is empty after trimming; rejection of blank input is left to the
callers (`handleSave` / `saveNote`), not performed by the store. -/
theorem C1_addNote_always_inserts (noteId createdAt text : List Char)
    (notes : List Note) :
    (addNote noteId createdAt text notes).length = notes.length + 1 ∧
    (addNote noteId createdAt text notes).head? =
      some { id := noteId, text := jsTrim text, createdAt := createdAt } ∧
    (addNote noteId createdAt text notes).tail = notes :=
  ⟨rfl, rfl, rfl⟩

/-- Claim C10: `addNote` only prepends — the collection after `addNote` is one
longer and its tail is exactly the prior collection, so every pre-existing
note is unchanged in content and relative order. -/
theorem C10_addNote_prepends_only (noteId createdAt text : List Char)
    (notes : List Note) :
    (addNote noteId createdAt text notes).length = notes.length + 1 ∧
    (addNote noteId createdAt text notes).tail = notes :=
  ⟨rfl, rfl⟩

/-- Claim C2 (counterexample): the claim says unmatched tokens are returned
byte-identical including their original letter case, but `normalizeNumbers`
lowercases the whole input first: the single token of `"Hello"` matches no
vocabulary entry, yet it comes back as `"hello"`, not byte-identical. -/
theorem C2_counterexample :
    normalizeNumbers ("Hello".toList) = "hello".toList ∧
    "hello".toList ≠ "Hello".toList := by decide

/-- Claim C2 (amended): `normalizeNumbers` first lowercases the entire input;
the lowercased text then splits into contiguous pieces such that each piece is
either passed through unchanged or is a matched phrase replaced through the
lookup `map[cleaned] || phrase` — by its digit string when the cleaned phrase
is a vocabulary key, or by the string coercion of an inherited
`Object.prototype` property when the cleaned phrase is such a property name
(the property read walks the prototype chain).  Every other token is
byte-identical to its lowercased form, in position. -/
theorem C2_lowercases_and_replaces_only_matches (s : List Char) :
    ∃ ps : List (List Char × List Char),
      (ps.map Prod.fst).flatten = s.map Char.toLower ∧
      (ps.map Prod.snd).flatten = normalizeNumbers s ∧
      ∀ p ∈ ps, p.2 = p.1 ∨
        lookupAssoc vocab (cleanedOf p.1) = some p.2 ∨
        lookupAssoc protoProps (cleanedOf p.1) = some p.2 := by
  obtain ⟨ps, h1, h2, h3⟩ := scanF_pieces (s.map Char.toLower).length false
    (s.map Char.toLower) (Nat.le_refl _)
  refine ⟨ps, h1, h2, ?_⟩
  intro p hp
  rcases h3 p hp with h4 | ⟨h4, _, _⟩
  · exact Or.inl h4
  · exact Or.inr h4

/-- Claim C4 (counterexample): the claim says `normalizeNumbers` is idempotent
on every input, but on `"constructor"` the phrase misses the vocabulary and
hits the inherited `Object.prototype.constructor`, so one application yields
`"function Object() { [native code] }"`; a second application lowercases that
text (`"function object() ..."`), so applying twice differs from applying
once. -/
theorem C4_counterexample :
    normalizeNumbers (normalizeNumbers ("constructor".toList)) ≠
      normalizeNumbers ("constructor".toList) := by decide

/-- Claim C4 (amended): `normalizeNumbers` is idempotent on every input whose
lowercased form contains neither `"constructor"` nor `"__proto__"` as a
substring — then no phrase is replaced through the prototype chain, every
replacement is a digit string matching no vocabulary key, and a second pass
re-matches exactly the same segments.  (On inputs containing those substrings
as standalone phrases idempotence fails; see the counterexample.) -/
theorem C4_idempotent_unless_proto (s : List Char)
    (hNC : ¬ ("constructor".toList <:+: s.map Char.toLower))
    (hNP : ¬ ("__proto__".toList <:+: s.map Char.toLower)) :
    normalizeNumbers (normalizeNumbers s) = normalizeNumbers s :=
  normalizeNumbers_idem_safe s hNC hNP

/-- Claim C4 witness: `"One two three"` contains neither bad substring, and
normalizing it twice equals normalizing it once. -/
theorem C4_witness :
    (¬ ("constructor".toList <:+: "One two three".toList.map Char.toLower) ∧
      ¬ ("__proto__".toList <:+: "One two three".toList.map Char.toLower)) ∧
    normalizeNumbers (normalizeNumbers ("One two three".toList)) =
      normalizeNumbers ("One two three".toList) :=
  ⟨⟨by decide, by decide⟩, C4_idempotent_unless_proto _ (by decide) (by decide)⟩

/-- Claim C5 (counterexample): the claim says every occurrence of a vocabulary
word is mapped to its digit string, but the regex matches whole
whitespace-joined phrases: in `"hello one"` the phrase is `"hello one"`, which
is not a table key, so the occurrence of `"one"` survives unreplaced. -/
theorem C5_counterexample :
    normalizeNumbers ("hello one".toList) = "hello one".toList ∧
    normalizeNumbers ("hello one".toList) ≠ "hello 1".toList ∧
    ("one".toList, "1".toList) ∈ vocab := by decide

/-- Claim C5 (amended): a vocabulary word is replaced when it stands alone —
when the whole input (after lowercasing) is exactly that word, case
-insensitively, it maps to its digit string; occurrences embedded in a larger
phrase pass through unchanged (see the counterexample). -/
theorem C5_standalone_vocabulary_words (k v s : List Char)
    (hkv : (k, v) ∈ vocab) (hs : s.map Char.toLower = k) :
    normalizeNumbers s = v := by
  show runScan false (s.map Char.toLower) = v
  rw [hs]
  exact vocab_standalone (k, v) hkv

/-- Claim C5 witness: `"DaLawa"` lowercases to the vocabulary word `"dalawa"`
and normalizes to `"2"`. -/
theorem C5_witness :
    (("dalawa".toList, "2".toList) ∈ vocab ∧
      "DaLawa".toList.map Char.toLower = "dalawa".toList) ∧
    normalizeNumbers ("DaLawa".toList) = "2".toList :=
  ⟨⟨by decide, by decide⟩,
    C5_standalone_vocabulary_words "dalawa".toList "2".toList "DaLawa".toList
      (by decide) (by decide)⟩

/-- Claim C9 (counterexample): the claim says the output of
`normalizeNumbers` never contains an ASCII uppercase letter, but on input
`"constructor"` the phrase hits the inherited `Object.prototype.constructor`
and the output is `"function Object() { [native code] }"`, which contains the
uppercase `O`. -/
theorem C9_counterexample :
    normalizeNumbers ("constructor".toList) =
      "function Object() \x7b [native code] \x7d".toList ∧
    ¬ ((normalizeNumbers ("constructor".toList)).all
        (fun c => !(isUpperAscii c)) = true) := by decide

/-- Claim C9 (amended): the output of `normalizeNumbers` contains no ASCII
uppercase letter for every input whose lowercased form contains neither
`"constructor"` nor `"__proto__"` as a substring — then every output
character comes either from the lowercased input or from a digit-string
vocabulary value; the only uppercase letters the normalizer can ever emit
come from prototype-chain replacements (see the counterexample). -/
theorem C9_output_fully_lowercased (s : List Char)
    (hNC : ¬ ("constructor".toList <:+: s.map Char.toLower))
    (hNP : ¬ ("__proto__".toList <:+: s.map Char.toLower)) :
    (normalizeNumbers s).all (fun c => !(isUpperAscii c)) = true := by
  rw [List.all_eq_true]
  intro c hc
  simp [normalizeNumbers_chars_safe hNC hNP hc]

/-- Claim C9 witness: `"HeLLo WoRld one"` contains neither bad substring and
its normalization is fully lowercase. -/
theorem C9_witness :
    (¬ ("constructor".toList <:+: "HeLLo WoRld one".toList.map Char.toLower) ∧
      ¬ ("__proto__".toList <:+: "HeLLo WoRld one".toList.map Char.toLower)) ∧
    (normalizeNumbers ("HeLLo WoRld one".toList)).all
      (fun c => !(isUpperAscii c)) = true :=
  ⟨⟨by decide, by decide⟩, C9_output_fully_lowercased _ (by decide) (by decide)⟩

/-- Claim C3 (counterexample): the claim says corrupt stored data falls back
to an empty collection instead of failing, but the hydration code is
`saved ? JSON.parse(saved) : []` with no catch: on the corrupt stored string
`"{oops"` the parse error propagates out of the initializer instead of
producing `[]`. -/
theorem C3_counterexample :
    hydrate (some ("\x7boops".toList)) = Except.error ("SyntaxError".toList) := by
  rfl

/-- Claim C3 (amended): on initialization the store hydrates from the
key-value store; a missing value (and the falsy empty string) falls back to
the empty collection, but corrupt stored data is not recovered: `JSON.parse`
throws and the error propagates (there is no catch), so corruption is
surfaced as a failure rather than an empty collection. -/
theorem C3_hydrate_missing_ok_corrupt_error :
    hydrate none = Except.ok [] ∧ hydrate (some []) = Except.ok [] ∧
    ∀ s : List Char, s ≠ [] → parseNotes s = none →
      hydrate (some s) = Except.error ("SyntaxError".toList) := by
  refine ⟨rfl, rfl, ?_⟩
  intro s h1 h2
  unfold hydrate
  simp only []
  rw [if_neg h1, h2]

/-- Claim C3 witness: the corrupt stored string `"{corrupt"` is nonempty,
fails to parse, and makes hydration fail. -/
theorem C3_witness :
    ("\x7bcorrupt".toList ≠ [] ∧ parseNotes ("\x7bcorrupt".toList) = none) ∧
    hydrate (some ("\x7bcorrupt".toList)) = Except.error ("SyntaxError".toList) :=
  ⟨⟨by decide, by decide⟩,
    C3_hydrate_missing_ok_corrupt_error.2.2 _ (by decide) (by decide)⟩

/-- Claim C6: persistence round-trip — for every collection of notes, writing
`JSON.stringify(notes)` under the single namespace key and hydrating it back
recovers a collection identical in order and content. -/
theorem C6_persistence_round_trip (notes : List Note) :
    hydrate (some (persistNotes notes)) = Except.ok notes :=
  hydrate_persist notes

/-- Claim C7 (counterexample): the claim says `stop()` appends the pending
interim text to the final text before exposing it; but after the single event
[interim "hel"], `stopRecording` exposes `transcript.trim() = ""` and simply
discards the pending interim text `"hel"` instead of appending it. -/
theorem C7_counterexample :
    (stopRecording (onResult [(false, "hel".toList)] initialRecorder)).finalTranscript
      = [] ∧
    (onResult [(false, "hel".toList)] initialRecorder).interimTranscript
      = "hel".toList := by decide

/-- Claim C7 (amended): `stopRecording` exposes the trimmed transcript as the
final text, clears (discards, does not append) the interim text, and leaves
recording mode; in particular after the events [interim "hel", final
"hello "] followed by stop, the finalized text is `"hello"` and the interim
text is empty. -/
theorem C7_stop_trims_and_discards_interim :
    (∀ st : RecorderState,
      (stopRecording st).finalTranscript = jsTrim st.transcript ∧
      (stopRecording st).interimTranscript = [] ∧
      (stopRecording st).isRecording = false ∧
      (stopRecording st).isStoppedManually = true) ∧
    (stopRecording (onResult [(true, "hello ".toList)]
        (onResult [(false, "hel".toList)] initialRecorder))).finalTranscript
      = "hello".toList ∧
    (stopRecording (onResult [(true, "hello ".toList)]
        (onResult [(false, "hel".toList)] initialRecorder))).interimTranscript
      = [] := by
  refine ⟨fun st => ⟨rfl, rfl, rfl, rfl⟩, ?_, by decide⟩
  decide

/-- Claim C8 (code bug): the fatal half of the claim holds — "permission
denied" / "not allowed" / "no microphone" (audio-capture) / "no network"
surface an error, clear the recording flag, mark the session manually stopped,
and the following session end schedules no restart — and a mid-session
"no speech" error indeed sets no error state; but the claimed (and intended:
the code's own comment reads "Auto-restart if still recording and not stopped
manually", and the branch logs "Auto-restarting in 300ms...") restart is never
scheduled.  The `onend` handler is created inside `startRecording` in a render
where `isRecording` is `false`, before `setIsRecording(true)`, and is never
rebound, so its closure reads the captured `false` and takes the
`setIsRecording(false)` branch: evaluated at the mid-session state after a
"no speech" error, the session end leaves `restartScheduled = false`, against
the claim's "a new session attempt is still scheduled". -/
theorem C8_no_restart_bug :
    ((onError SpeechError.noSpeech ⟨true, true, [], none, false, false⟩).error
        = none ∧
      (onError SpeechError.noSpeech ⟨true, true, [], none, false, false⟩).isRecording
        = true) ∧
    (onEnd false (onError SpeechError.noSpeech
      ⟨true, true, [], none, false, false⟩)).restartScheduled = false ∧
    (onEnd false (onError SpeechError.noSpeech
      ⟨true, true, [], none, false, false⟩)).isRecording = false ∧
    ((onError SpeechError.permissionDenied ⟨true, true, [], none, false, false⟩).error
        ≠ none ∧
      (onError SpeechError.permissionDenied
        ⟨true, true, [], none, false, false⟩).isRecording = false ∧
      (onError SpeechError.permissionDenied
        ⟨true, true, [], none, false, false⟩).isStoppedManually = true ∧
      (onEnd false (onError SpeechError.permissionDenied
        ⟨true, true, [], none, false, false⟩)).restartScheduled = false) ∧
    ((onError SpeechError.notAllowed ⟨true, true, [], none, false, false⟩).error
        ≠ none ∧
      (onError SpeechError.notAllowed
        ⟨true, true, [], none, false, false⟩).isRecording = false ∧
      (onError SpeechError.notAllowed
        ⟨true, true, [], none, false, false⟩).isStoppedManually = true ∧
      (onEnd false (onError SpeechError.notAllowed
        ⟨true, true, [], none, false, false⟩)).restartScheduled = false) ∧
    ((onError SpeechError.audioCapture ⟨true, true, [], none, false, false⟩).error
        ≠ none ∧
      (onError SpeechError.audioCapture
        ⟨true, true, [], none, false, false⟩).isRecording = false ∧
      (onError SpeechError.audioCapture
        ⟨true, true, [], none, false, false⟩).isStoppedManually = true ∧
      (onEnd false (onError SpeechError.audioCapture
        ⟨true, true, [], none, false, false⟩)).restartScheduled = false) ∧
    ((onError SpeechError.network ⟨true, true, [], none, false, false⟩).error
        ≠ none ∧
      (onError SpeechError.network
        ⟨true, true, [], none, false, false⟩).isRecording = false ∧
      (onError SpeechError.network
        ⟨true, true, [], none, false, false⟩).isStoppedManually = true ∧
      (onEnd false (onError SpeechError.network
        ⟨true, true, [], none, false, false⟩)).restartScheduled = false) := by
  decide
